import Mathlib

/-!
Verification of the Competitive Companion batch-listener logic found in
`download_prob.py` and `download_problem.py` (class `CompetitiveCompanionServer`,
methods `listen_once` and `listen_many`).

Modelling notes.

A received payload is modelled by `Record`: the listener extracts only
`data['batch']['id']` and `data['batch']['size']`; every other JSON field is
opaque to it and is collapsed into a single `payload` component.  Python ints
are modelled by `Int` (`batch_size` is not validated by the code and may be
zero or negative).

The wire is modelled by a list of `RawEvent`s, one per call to `listen_once`:
`post r` is an HTTP POST whose body parses to the record `r`; `malformed` is a
POST whose body is not valid JSON; `nodata` is a receive that produces no
parsed record (idle timeout elapsed, or a non-POST request).  An exhausted
event list means no further wire activity ever happens, so a receive with a
timeout yields no data and a receive without a timeout blocks forever.

`listen_once` builds an `http.server.HTTPServer` and calls `handle_request`
exactly once.  `Handler.do_POST` runs `json.load(self.rfile)`, which raises
`json.JSONDecodeError` on a malformed body.  That exception propagates out of
`BaseHTTPRequestHandler.handle_one_request` (which catches only timeouts) into
`socketserver.BaseServer._handle_request_noblock`, whose
`try: self.process_request(...) except Exception: self.handle_error(...)`
catches it; `handle_error` only prints a traceback.  Hence a parse failure
never escapes `listen_once`: the nonlocal `json_data` is simply left at
`None`.  The embedding keeps the raising step (`do_POST`) and the catching
step (`listen_once`) separate so this structure is visible; the `Except`
return type records which exceptions could propagate to the caller.

`listen_many` can end in three ways, captured by `Outcome`: a normal return
(`done`, carrying the accumulated `results` list, whose elements are
`Option Record` because Python appends `listen_once()` results that may be
`None` in the fixed-count and idle modes), blocking forever on a receive that
never gets data (`blocked`), or an escaping exception (`raised`).  Each
session function also returns the suffix of wire events it did not consume,
which makes "how many receives were performed" provable.

The batch ledger `batches` is a Python `dict` keyed by `batch_id`, i.e. a
finite map that preserves insertion order; it is modelled as an ordered
association list `Ledger` of entries `(batch_id, remaining, total)`, matching
`batches[batch_id] = [need, total]`.  `len(batches) < num_batches` is the
length test; `any(need for need, _ in batches.values())` is true exactly when
some entry has a nonzero (Python-truthy) `remaining`, which the code reaches
with `remaining` negative when a batch declares a non-positive size or more
records than declared arrive.
-/

/-- One received payload: the two batch fields the listener reads, plus an
opaque stand-in for all the other JSON fields. -/
structure Record where
  batchId : String
  batchSize : Int
  payload : Nat
deriving DecidableEq

/-- What one call to `listen_once` finds on the wire. -/
inductive RawEvent where
  | nodata
  | malformed
  | post (r : Record)
deriving DecidableEq

/-- The exception raised by `json.load` on a body that is not valid JSON. -/
inductive ParseError where
  | jsonDecodeError
deriving DecidableEq

/-- How a session-level `listen_many` call ends: a normal return with the
accumulated `results` list, blocking forever on a receive that never gets
data, or an exception escaping to the caller. -/
inductive Outcome where
  | done (results : List (Option Record))
  | blocked
  | raised (err : ParseError)
deriving DecidableEq

/-- One batch-ledger entry `(batch_id, remaining, total)`, i.e. the pair
`batches[batch_id] = [need, total]` together with its key. -/
abbrev Entry := String × Int × Int

/-- The `batches` dict of `listen_many`: an insertion-ordered association
list from batch id to `(remaining, total)`. -/
abbrev Ledger := List Entry

namespace DProb

/-- Body of `Handler.do_POST` in `download_prob.py`: `json.load(self.rfile)`
raises on a malformed body, otherwise the parsed record is stored and a 200
response is sent.  On a receive that sees no POST, `do_POST` never runs and
the nonlocal `json_data` stays `None`. -/
def do_POST : RawEvent → Except ParseError (Option Record)
  | .nodata => .ok none
  | .malformed => .error ParseError.jsonDecodeError
  | .post r => .ok (some r)

/-- `CompetitiveCompanionServer.listen_once` in `download_prob.py`: one
`server.handle_request()`.  The stdlib catches any exception thrown by the
handler (`socketserver.BaseServer._handle_request_noblock` calls
`handle_error`, which only logs), so a parse error is swallowed and the
receive returns `None`; `listen_once` itself never raises. -/
def listen_once (e : RawEvent) : Except ParseError (Option Record) :=
  match do_POST e with
  | .ok d => .ok d
  | .error _ => .ok none

/-- Membership test `batch_id not in batches` (negated). -/
def containsKey (L : Ledger) (i : String) : Bool :=
  L.any (fun ent => ent.1 == i)

/-- The in-place decrement `batches[batch_id][0] -= 1`: subtract one from the
`remaining` field of the entry with the given key (the first such entry; keys
are unique in a Python dict).  Insertion order is unchanged. -/
def decKey : Ledger → String → Ledger
  | [], _ => []
  | ent :: t, i =>
      if ent.1 == i then (ent.1, ent.2.1 - 1, ent.2.2) :: t
      else ent :: decKey t i

/-- The per-record ledger update of the `num_batches` loop:
`if batch_id not in batches: batches[batch_id] = [batch_size, batch_size]`
followed by `batches[batch_id][0] -= 1`. -/
def updateLedger (L : Ledger) (r : Record) : Ledger :=
  decKey
    (if containsKey L r.batchId then L
     else L ++ [(r.batchId, r.batchSize, r.batchSize)])
    r.batchId

/-- The `while` guard of the `num_batches` loop:
`len(batches) < num_batches or any(need for need, _ in batches.values())`.
A Python int is truthy exactly when it is nonzero, so a negative `need`
keeps the loop running. -/
def loopCond (b : Nat) (L : Ledger) : Bool :=
  decide (L.length < b) || L.any (fun ent => ent.2.1 != 0)

/-- The `num_batches` loop of `listen_many`, with the accumulated `results`
and the `batches` dict as explicit state.  The guard is evaluated before
every receive; `data is None` breaks out of the loop; otherwise the record is
appended and the ledger updated.  An exception from `listen_once` (none can
occur, see `listen_once`) would propagate. -/
def batchesGo (b : Nat) (acc : List (Option Record)) (L : Ledger) :
    List RawEvent → Outcome × List RawEvent
  | [] =>
      if loopCond b L then (.blocked, []) else (.done acc, [])
  | e :: rest =>
      if loopCond b L then
        match listen_once e with
        | .error err => (.raised err, rest)
        | .ok none => (.done acc, rest)
        | .ok (some r) => batchesGo b (acc ++ [some r]) (updateLedger L r) rest
      else (.done acc, e :: rest)

/-- The `num_items` branch of `listen_many`:
`[self.listen_once() for _ in range(num_items)]`.  Each receive has no
timeout, and the (possibly `None`) results are collected unconditionally. -/
def countGo (acc : List (Option Record)) :
    Nat → List RawEvent → Outcome × List RawEvent
  | 0, stream => (.done acc, stream)
  | _ + 1, [] => (.blocked, [])
  | n + 1, e :: rest =>
      match listen_once e with
      | .error err => (.raised err, rest)
      | .ok d => countGo (acc ++ [d]) n rest

/-- The trailing `while True` loop of the timeout branch of `listen_many`:
receive with timeout, break on `None`, append otherwise. -/
def idleGo (acc : List (Option Record)) :
    List RawEvent → Outcome × List RawEvent
  | [] => (.done acc, [])
  | e :: rest =>
      match listen_once e with
      | .error err => (.raised err, rest)
      | .ok none => (.done acc, rest)
      | .ok (some r) => idleGo (acc ++ [some r]) rest

/-- The timeout branch of `listen_many`: `results = [self.listen_once()]`
performs one mandatory blocking receive (no timeout) whose result is stored
even when it is `None`, then the timed loop runs.  On an empty wire the
mandatory receive blocks forever. -/
def listen_many_idle : List RawEvent → Outcome × List RawEvent
  | [] => (.blocked, [])
  | e :: rest =>
      match listen_once e with
      | .error err => (.raised err, rest)
      | .ok d => idleGo [d] rest

/-- `listen_many(num_items=n)`. -/
def listen_many_count (n : Nat) (stream : List RawEvent) :
    Outcome × List RawEvent :=
  countGo [] n stream

/-- `listen_many(num_batches=b)`: the batch loop started with empty
`results` and empty `batches`. -/
def listen_many_batches (b : Nat) (stream : List RawEvent) :
    Outcome × List RawEvent :=
  batchesGo b [] [] stream

/-- `CompetitiveCompanionServer.listen_many` of `download_prob.py`: the
policy dispatch on its keyword arguments.  `num_items` wins over
`num_batches`; with neither, the timeout policy runs (the `timeout` value
itself only determines whether a receive can yield no data, which the wire
model carries in the events, so it is not a parameter here). -/
def listen_many (numItems numBatches : Option Nat) (stream : List RawEvent) :
    Outcome × List RawEvent :=
  match numItems with
  | some n => listen_many_count n stream
  | none =>
      match numBatches with
      | some b => listen_many_batches b stream
      | none => listen_many_idle stream

end DProb

namespace DProblem

/-!
Independent translation of `CompetitiveCompanionServer` as it appears in
`download_problem.py` (lines 234 to 290).  The class there is a copy of the
one in `download_prob.py`; it is embedded again, definition by definition, so
that the extensional equality of the two copies is a theorem about two
separate translations rather than a tautology.
-/

/-- Body of `Handler.do_POST` in `download_problem.py`. -/
def do_POST : RawEvent → Except ParseError (Option Record)
  | .nodata => .ok none
  | .malformed => .error ParseError.jsonDecodeError
  | .post r => .ok (some r)

/-- `CompetitiveCompanionServer.listen_once` in `download_problem.py`; the
stdlib swallows handler exceptions exactly as described for `DProb`. -/
def listen_once (e : RawEvent) : Except ParseError (Option Record) :=
  match do_POST e with
  | .ok d => .ok d
  | .error _ => .ok none

/-- Membership test `batch_id not in batches` (negated). -/
def containsKey (L : Ledger) (i : String) : Bool :=
  L.any (fun ent => ent.1 == i)

/-- The in-place decrement `batches[batch_id][0] -= 1`. -/
def decKey : Ledger → String → Ledger
  | [], _ => []
  | ent :: t, i =>
      if ent.1 == i then (ent.1, ent.2.1 - 1, ent.2.2) :: t
      else ent :: decKey t i

/-- Per-record ledger update of the `num_batches` loop. -/
def updateLedger (L : Ledger) (r : Record) : Ledger :=
  decKey
    (if containsKey L r.batchId then L
     else L ++ [(r.batchId, r.batchSize, r.batchSize)])
    r.batchId

/-- The `while` guard of the `num_batches` loop. -/
def loopCond (b : Nat) (L : Ledger) : Bool :=
  decide (L.length < b) || L.any (fun ent => ent.2.1 != 0)

/-- The `num_batches` loop of `listen_many` in `download_problem.py`. -/
def batchesGo (b : Nat) (acc : List (Option Record)) (L : Ledger) :
    List RawEvent → Outcome × List RawEvent
  | [] =>
      if loopCond b L then (.blocked, []) else (.done acc, [])
  | e :: rest =>
      if loopCond b L then
        match listen_once e with
        | .error err => (.raised err, rest)
        | .ok none => (.done acc, rest)
        | .ok (some r) => batchesGo b (acc ++ [some r]) (updateLedger L r) rest
      else (.done acc, e :: rest)

/-- The `num_items` branch of `listen_many` in `download_problem.py`. -/
def countGo (acc : List (Option Record)) :
    Nat → List RawEvent → Outcome × List RawEvent
  | 0, stream => (.done acc, stream)
  | _ + 1, [] => (.blocked, [])
  | n + 1, e :: rest =>
      match listen_once e with
      | .error err => (.raised err, rest)
      | .ok d => countGo (acc ++ [d]) n rest

/-- The trailing `while True` loop of the timeout branch. -/
def idleGo (acc : List (Option Record)) :
    List RawEvent → Outcome × List RawEvent
  | [] => (.done acc, [])
  | e :: rest =>
      match listen_once e with
      | .error err => (.raised err, rest)
      | .ok none => (.done acc, rest)
      | .ok (some r) => idleGo (acc ++ [some r]) rest

/-- The timeout branch of `listen_many` in `download_problem.py`. -/
def listen_many_idle : List RawEvent → Outcome × List RawEvent
  | [] => (.blocked, [])
  | e :: rest =>
      match listen_once e with
      | .error err => (.raised err, rest)
      | .ok d => idleGo [d] rest

/-- `listen_many(num_items=n)` in `download_problem.py`. -/
def listen_many_count (n : Nat) (stream : List RawEvent) :
    Outcome × List RawEvent :=
  countGo [] n stream

/-- `listen_many(num_batches=b)` in `download_problem.py`. -/
def listen_many_batches (b : Nat) (stream : List RawEvent) :
    Outcome × List RawEvent :=
  batchesGo b [] [] stream

/-- `CompetitiveCompanionServer.listen_many` of `download_problem.py`. -/
def listen_many (numItems numBatches : Option Nat) (stream : List RawEvent) :
    Outcome × List RawEvent :=
  match numItems with
  | some n => listen_many_count n stream
  | none =>
      match numBatches with
      | some b => listen_many_batches b stream
      | none => listen_many_idle stream

end DProblem

open DProb

/-!
Analysis layer: observation functions on the ledger and on record streams,
used to state the claims about `DProb`.
-/

/-- The entry stored under key `i`, i.e. the dict access `batches[i]`
(returning the first, and for reachable ledgers only, entry with that key). -/
def findEntry (L : Ledger) (i : String) : Option Entry :=
  L.find? (fun ent => ent.1 == i)

/-- The ledger obtained by running the receive-and-update step of the
`num_batches` loop on each record of `recs` in order, starting from `L`. -/
def ledgerSteps (L : Ledger) (recs : List Record) : Ledger :=
  recs.foldl updateLedger L

/-- The ledger after a session has received and processed `recs`, starting
from the empty `batches = dict()`. -/
def ledgerAfter (recs : List Record) : Ledger :=
  ledgerSteps [] recs

/-- How many records of `recs` belong to batch `i`. -/
def batchCount (recs : List Record) (i : String) : Nat :=
  (recs.filter (fun r => r.batchId == i)).length

/-- The keys of the ledger, in insertion order. -/
def ledgerKeys (L : Ledger) : List String :=
  L.map (fun ent => ent.1)

/-- Whether a session ended with an exception propagating to the caller. -/
def Outcome.isRaised : Outcome → Bool
  | .raised _ => true
  | _ => false

/-!
Ledger lemmas.
-/

theorem findEntry_nil (i : String) : findEntry [] i = none := rfl

theorem findEntry_cons (ent : Entry) (t : Ledger) (i : String) :
    findEntry (ent :: t) i = if ent.1 == i then some ent else findEntry t i := by
  cases h : (ent.1 == i) <;> simp [findEntry, List.find?, h]

theorem containsKey_eq_isSome (L : Ledger) (i : String) :
    containsKey L i = (findEntry L i).isSome := by
  induction L with
  | nil => rfl
  | cons ent t ih =>
      cases h : (ent.1 == i)
      · simp only [containsKey, List.any_cons, h, Bool.false_or,
          findEntry_cons, Bool.false_eq_true, if_false]
        simpa [containsKey] using ih
      · simp [containsKey, findEntry_cons, h, List.any_cons]

theorem findEntry_decKey_self (L : Ledger) (i : String) :
    findEntry (decKey L i) i =
      (findEntry L i).map (fun ent => (ent.1, ent.2.1 - 1, ent.2.2)) := by
  induction L with
  | nil => rfl
  | cons ent t ih =>
      cases h : (ent.1 == i)
      · simp [decKey, h, findEntry_cons, ih]
      · simp [decKey, h, findEntry_cons]

theorem findEntry_decKey_ne (L : Ledger) (i j : String) (h : i ≠ j) :
    findEntry (decKey L j) i = findEntry L i := by
  induction L with
  | nil => rfl
  | cons ent t ih =>
      cases hb : (ent.1 == j)
      · simp [decKey, hb, findEntry_cons, ih]
      · have he : ent.1 = j := eq_of_beq hb
        have hi : (ent.1 == i) = false := by
          simp [he, beq_iff_eq]
          exact fun hcontra => h hcontra.symm
        simp [decKey, hb, findEntry_cons, hi]

theorem findEntry_append_left {L : Ledger} {i : String} {ent : Entry}
    (h : findEntry L i = some ent) (M : Ledger) :
    findEntry (L ++ M) i = some ent := by
  induction L with
  | nil => simp [findEntry] at h
  | cons e t ih =>
      rw [findEntry_cons] at h
      cases hb : (e.1 == i)
      · rw [hb] at h
        simp only [Bool.false_eq_true, if_false] at h
        simpa [findEntry_cons, hb] using ih h
      · rw [hb] at h
        simp only [if_true] at h
        simp [findEntry_cons, hb, h]

theorem findEntry_append_right {L : Ledger} {i : String}
    (h : findEntry L i = none) (M : Ledger) :
    findEntry (L ++ M) i = findEntry M i := by
  induction L with
  | nil => simp
  | cons e t ih =>
      rw [findEntry_cons] at h
      cases hb : (e.1 == i)
      · rw [hb] at h
        simp only [Bool.false_eq_true, if_false] at h
        simpa [findEntry_cons, hb] using ih h
      · rw [hb] at h
        simp at h

theorem findEntry_updateLedger_self (L : Ledger) (r : Record) :
    findEntry (updateLedger L r) r.batchId =
      match findEntry L r.batchId with
      | some ent => some (ent.1, ent.2.1 - 1, ent.2.2)
      | none => some (r.batchId, r.batchSize - 1, r.batchSize) := by
  unfold updateLedger
  cases h : findEntry L r.batchId with
  | some ent =>
      have hc : containsKey L r.batchId = true := by
        rw [containsKey_eq_isSome, h]; rfl
      simp [hc, findEntry_decKey_self, h]
  | none =>
      have hc : containsKey L r.batchId = false := by
        rw [containsKey_eq_isSome, h]; rfl
      have happ : findEntry (L ++ [(r.batchId, r.batchSize, r.batchSize)])
          r.batchId = some (r.batchId, r.batchSize, r.batchSize) := by
        rw [findEntry_append_right h, findEntry_cons]
        simp
      simp [hc, findEntry_decKey_self, happ]

theorem findEntry_updateLedger_ne (L : Ledger) (r : Record) (i : String)
    (h : i ≠ r.batchId) :
    findEntry (updateLedger L r) i = findEntry L i := by
  unfold updateLedger
  rw [findEntry_decKey_ne _ _ _ h]
  cases hc : containsKey L r.batchId
  · simp only [Bool.false_eq_true, if_false]
    cases hf : findEntry L i with
    | some ent => simp [hf, findEntry_append_left hf]
    | none =>
        rw [findEntry_append_right hf, findEntry_cons]
        have hb : (r.batchId == i) = false := by
          simp [beq_iff_eq]
          exact fun hcontra => h hcontra.symm
        simp [hb, findEntry_nil]
  · simp

/-- Workhorse: the entry under key `i` after folding the receive-and-update
step over `recs` from initial ledger `L`.  If `i` was already present its
`total` is untouched and its `remaining` drops by one per record of batch
`i`; otherwise the entry is created by the first record of batch `i` (if
any), `total` is that record's declared size, and every record of batch `i`
in `recs` (the creating one included) decrements `remaining` by one. -/
theorem findEntry_ledgerSteps (i : String) :
    ∀ (recs : List Record) (L : Ledger),
      findEntry (ledgerSteps L recs) i =
        match findEntry L i with
        | some ent =>
            some (ent.1, ent.2.1 - (batchCount recs i : Int), ent.2.2)
        | none =>
            match recs.find? (fun r => r.batchId == i) with
            | none => none
            | some r₀ =>
                some (i, r₀.batchSize - (batchCount recs i : Int), r₀.batchSize)
  | [], L => by
      cases h : findEntry L i with
      | none => simp [ledgerSteps, h, batchCount]
      | some ent =>
          obtain ⟨k, rem, tot⟩ := ent
          simp [ledgerSteps, h, batchCount]
  | r :: rest, L => by
      have hstep : ledgerSteps L (r :: rest) = ledgerSteps (updateLedger L r) rest := rfl
      rw [hstep, findEntry_ledgerSteps i rest (updateLedger L r)]
      cases hb : (r.batchId == i)
      · have hne : i ≠ r.batchId := by
          intro he
          rw [he] at hb
          simp at hb
        rw [findEntry_updateLedger_ne L r i hne]
        have hcnt : batchCount (r :: rest) i = batchCount rest i := by
          simp [batchCount, List.filter_cons, hb]
        have hfind : (r :: rest).find? (fun s => s.batchId == i) =
            rest.find? (fun s => s.batchId == i) := by
          simp [List.find?, hb]
        rw [hcnt, hfind]
      · have he : r.batchId = i := eq_of_beq hb
        subst he
        rw [findEntry_updateLedger_self]
        have hcnt : (batchCount (r :: rest) r.batchId : Int) =
            (batchCount rest r.batchId : Int) + 1 := by
          have h1 : batchCount (r :: rest) r.batchId =
              batchCount rest r.batchId + 1 := by
            simp [batchCount, List.filter_cons]
          rw [h1]
          omega
        have hfind : (r :: rest).find? (fun s => s.batchId == r.batchId) =
            some r := by
          simp [List.find?]
        rw [hfind, hcnt]
        cases h : findEntry L r.batchId <;> simp [sub_sub, add_comm]

theorem ledgerKeys_cons (ent : Entry) (t : Ledger) :
    ledgerKeys (ent :: t) = ent.1 :: ledgerKeys t := rfl

theorem ledgerKeys_decKey (L : Ledger) (i : String) :
    ledgerKeys (decKey L i) = ledgerKeys L := by
  induction L with
  | nil => rfl
  | cons ent t ih =>
      cases h : (ent.1 == i) <;> simp [decKey, h, ledgerKeys_cons, ih]

theorem containsKey_true_iff (L : Ledger) (i : String) :
    containsKey L i = true ↔ i ∈ ledgerKeys L := by
  unfold containsKey ledgerKeys
  rw [List.any_eq_true]
  constructor
  · rintro ⟨ent, hm, he⟩
    exact List.mem_map.mpr ⟨ent, hm, eq_of_beq he⟩
  · intro hmem
    rcases List.mem_map.mp hmem with ⟨ent, hm, he⟩
    exact ⟨ent, hm, beq_iff_eq.mpr he⟩

theorem ledgerKeys_append (L M : Ledger) :
    ledgerKeys (L ++ M) = ledgerKeys L ++ ledgerKeys M := by
  simp [ledgerKeys]

theorem ledgerKeys_updateLedger (L : Ledger) (r : Record) :
    ledgerKeys (updateLedger L r) =
      if containsKey L r.batchId then ledgerKeys L
      else ledgerKeys L ++ [r.batchId] := by
  unfold updateLedger
  cases hc : containsKey L r.batchId
  · simp only [Bool.false_eq_true, if_false]
    rw [ledgerKeys_decKey, ledgerKeys_append]
    rfl
  · simp only [if_true]
    rw [ledgerKeys_decKey]

theorem nodup_ledgerKeys_updateLedger (L : Ledger) (r : Record)
    (h : (ledgerKeys L).Nodup) : (ledgerKeys (updateLedger L r)).Nodup := by
  rw [ledgerKeys_updateLedger]
  cases hc : containsKey L r.batchId
  · have hnotin : r.batchId ∉ ledgerKeys L := by
      intro hmem
      rw [(containsKey_true_iff L r.batchId).mpr hmem] at hc
      exact Bool.true_eq_false.mp hc
    simp [List.nodup_append, h, hnotin]
  · simpa using h

theorem nodup_ledgerKeys_ledgerSteps (recs : List Record) :
    ∀ L : Ledger, (ledgerKeys L).Nodup →
      (ledgerKeys (ledgerSteps L recs)).Nodup := by
  induction recs with
  | nil => intro L h; exact h
  | cons r rs ih =>
      intro L h
      exact ih (updateLedger L r) (nodup_ledgerKeys_updateLedger L r h)

theorem findEntry_of_mem :
    ∀ L : Ledger, (ledgerKeys L).Nodup → ∀ ent ∈ L, findEntry L ent.1 = some ent := by
  intro L
  induction L with
  | nil => intro _ ent h; cases h
  | cons e t ih =>
      intro hnd ent hm
      have hnd' : e.1 ∉ ledgerKeys t ∧ (ledgerKeys t).Nodup := by
        rw [ledgerKeys_cons] at hnd
        exact List.nodup_cons.mp hnd
      rw [findEntry_cons]
      rcases List.mem_cons.mp hm with rfl | hm'
      · simp
      · cases hbe : (e.1 == ent.1)
        · simp only [Bool.false_eq_true, if_false]
          exact ih hnd'.2 ent hm'
        · exfalso
          have he : e.1 = ent.1 := eq_of_beq hbe
          have hk : ent.1 ∈ ledgerKeys t := List.mem_map.mpr ⟨ent, hm', rfl⟩
          rw [he] at hnd'
          exact hnd'.1 hk

/-!
Session-loop lemmas for the `num_batches` policy.
-/

theorem batchesGo_of_cond_false {b : Nat} {L : Ledger}
    (h : loopCond b L = false) (acc : List (Option Record))
    (stream : List RawEvent) :
    batchesGo b acc L stream = (.done acc, stream) := by
  cases stream <;> simp [batchesGo, h]

theorem batchesGo_post {b : Nat} {L : Ledger} (h : loopCond b L = true)
    (acc : List (Option Record)) (r : Record) (rest : List RawEvent) :
    batchesGo b acc L (RawEvent.post r :: rest) =
      batchesGo b (acc ++ [some r]) (updateLedger L r) rest := by
  simp [batchesGo, h, listen_once, do_POST]

theorem batchesGo_of_none {b : Nat} {L : Ledger} (h : loopCond b L = true)
    {e : RawEvent} (he : listen_once e = .ok none)
    (acc : List (Option Record)) (rest : List RawEvent) :
    batchesGo b acc L (e :: rest) = (.done acc, rest) := by
  simp [batchesGo, h, he]

theorem batchesGo_of_nil {b : Nat} {L : Ledger} (h : loopCond b L = true)
    (acc : List (Option Record)) :
    batchesGo b acc L [] = (.blocked, []) := by
  simp [batchesGo, h]

theorem loopCond_true_of_nonzero {L : Ledger} {i : String} {rem tot : Int}
    (hent : findEntry L i = some (i, rem, tot)) (hne : rem ≠ 0) (b : Nat) :
    loopCond b L = true := by
  have hmem : (i, rem, tot) ∈ L := List.mem_of_find?_eq_some hent
  unfold loopCond
  rw [Bool.or_eq_true]
  exact Or.inr (List.any_eq_true.mpr ⟨(i, rem, tot), hmem, by simpa using hne⟩)

/-- If the loop guard turns false for the first time after exactly `k`
records, the `num_batches` loop consumes exactly the first `k` posts of the
wire and returns the accumulated results. -/
theorem batchesGo_stops (b : Nat) :
    ∀ (k : Nat) (recs : List Record) (acc : List (Option Record)) (L : Ledger)
      (rest : List RawEvent),
      k ≤ recs.length →
      loopCond b (ledgerSteps L (recs.take k)) = false →
      (∀ j, j < k → loopCond b (ledgerSteps L (recs.take j)) = true) →
      batchesGo b acc L (recs.map RawEvent.post ++ rest) =
        (Outcome.done (acc ++ (recs.take k).map some),
         (recs.drop k).map RawEvent.post ++ rest) := by
  intro k
  induction k with
  | zero =>
      intro recs acc L rest hk hstop hmin
      rw [batchesGo_of_cond_false (by simpa [ledgerSteps] using hstop)]
      simp
  | succ j ih =>
      intro recs acc L rest hk hstop hmin
      cases recs with
      | nil => simp at hk
      | cons r rs =>
          have h0 : loopCond b L = true := by
            simpa [ledgerSteps] using hmin 0 (Nat.succ_pos j)
          rw [List.map_cons, List.cons_append, batchesGo_post h0]
          rw [ih rs (acc ++ [some r]) (updateLedger L r) rest
            (by simpa using Nat.succ_le_succ_iff.mp (by simpa using hk))
            (by simpa [List.take_succ_cons, ledgerSteps] using hstop)
            (fun j' hj' => by
              simpa [List.take_succ_cons, ledgerSteps]
                using hmin (j' + 1) (Nat.succ_lt_succ hj'))]
          simp [List.take_succ_cons, List.drop_succ_cons, List.append_assoc]

/-- If the loop guard stays true throughout `recs` and the next receive
yields no data, the `num_batches` loop ends right there with everything
collected so far. -/
theorem batchesGo_nodata_end (b : Nat) :
    ∀ (recs : List Record) (acc : List (Option Record)) (L : Ledger)
      (stopEv : RawEvent) (rest : List RawEvent),
      (∀ k, k ≤ recs.length → loopCond b (ledgerSteps L (recs.take k)) = true) →
      listen_once stopEv = .ok none →
      batchesGo b acc L (recs.map RawEvent.post ++ stopEv :: rest) =
        (.done (acc ++ recs.map some), rest) := by
  intro recs
  induction recs with
  | nil =>
      intro acc L stopEv rest hrun hstop
      have h0 : loopCond b L = true := by
        simpa [ledgerSteps] using hrun 0 (by simp)
      simpa using batchesGo_of_none h0 hstop acc rest
  | cons r rs ih =>
      intro acc L stopEv rest hrun hstop
      have h0 : loopCond b L = true := by
        simpa [ledgerSteps] using hrun 0 (by simp)
      rw [List.map_cons, List.cons_append, batchesGo_post h0]
      rw [ih (acc ++ [some r]) (updateLedger L r) stopEv rest
        (fun k hk => by
          simpa [List.take_succ_cons, ledgerSteps]
            using hrun (k + 1) (by simpa using Nat.succ_le_succ hk)) hstop]
      simp [List.append_assoc]

/-- Once some entry's `remaining` is negative, a pure stream of posts can
never satisfy the loop guard again: the loop consumes the whole wire and
then blocks on the next receive. -/
theorem batchesGo_blocked_of_neg (b : Nat) :
    ∀ (recs : List Record) (acc : List (Option Record)) (L : Ledger)
      (i : String) (rem tot : Int),
      findEntry L i = some (i, rem, tot) → rem < 0 →
      batchesGo b acc L (recs.map RawEvent.post) = (.blocked, []) := by
  intro recs
  induction recs with
  | nil =>
      intro acc L i rem tot hent hneg
      have h0 : loopCond b L = true :=
        loopCond_true_of_nonzero hent (by omega) b
      simpa using batchesGo_of_nil h0 acc
  | cons r rs ih =>
      intro acc L i rem tot hent hneg
      have h0 : loopCond b L = true :=
        loopCond_true_of_nonzero hent (by omega) b
      rw [List.map_cons, batchesGo_post h0]
      by_cases hb : r.batchId = i
      · have hent' : findEntry (updateLedger L r) i = some (i, rem - 1, tot) := by
          have := findEntry_updateLedger_self L r
          rw [hb] at this
          rw [this, hent]
        exact ih (acc ++ [some r]) (updateLedger L r) i (rem - 1) tot hent'
          (by omega)
      · have hent' : findEntry (updateLedger L r) i = some (i, rem, tot) := by
          rw [findEntry_updateLedger_ne L r i (fun he => hb he.symm), hent]
        exact ih (acc ++ [some r]) (updateLedger L r) i rem tot hent' hneg

/-!
Session-loop lemmas for the `num_items` and timeout policies.
-/

theorem countGo_spec :
    ∀ (recs : List Record) (acc : List (Option Record)) (rest : List RawEvent),
      countGo acc recs.length (recs.map RawEvent.post ++ rest) =
        (.done (acc ++ recs.map some), rest) := by
  intro recs
  induction recs with
  | nil => intro acc rest; simp [countGo]
  | cons r rs ih =>
      intro acc rest
      simp only [List.length_cons, List.map_cons, List.cons_append]
      simp only [countGo, listen_once, do_POST]
      rw [ih]
      simp [List.append_assoc]

theorem idleGo_spec :
    ∀ (recs : List Record) (acc : List (Option Record)) {stopEv : RawEvent}
      (rest : List RawEvent),
      listen_once stopEv = .ok none →
      idleGo acc (recs.map RawEvent.post ++ stopEv :: rest) =
        (.done (acc ++ recs.map some), rest) := by
  intro recs
  induction recs with
  | nil =>
      intro acc stopEv rest hstop
      simp only [List.map_nil, List.nil_append]
      simp [idleGo, hstop]
  | cons r rs ih =>
      intro acc stopEv rest hstop
      simp only [List.map_cons, List.cons_append]
      simp only [idleGo, listen_once, do_POST]
      rw [ih _ rest hstop]
      simp [List.append_assoc]

/-!
Extensional equality of the two script copies.
-/

theorem do_POST_eq (e : RawEvent) : DProb.do_POST e = DProblem.do_POST e := by
  cases e <;> rfl

theorem listen_once_eq (e : RawEvent) :
    DProb.listen_once e = DProblem.listen_once e := by
  unfold DProb.listen_once DProblem.listen_once
  rw [do_POST_eq]

theorem containsKey_eq (L : Ledger) (i : String) :
    DProb.containsKey L i = DProblem.containsKey L i := rfl

theorem decKey_eq (L : Ledger) (i : String) :
    DProb.decKey L i = DProblem.decKey L i := by
  induction L with
  | nil => rfl
  | cons ent t ih =>
      unfold DProb.decKey DProblem.decKey
      rw [ih]

theorem updateLedger_eq (L : Ledger) (r : Record) :
    DProb.updateLedger L r = DProblem.updateLedger L r := by
  unfold DProb.updateLedger DProblem.updateLedger
  simp only [decKey_eq, containsKey_eq]

theorem loopCond_eq (b : Nat) (L : Ledger) :
    DProb.loopCond b L = DProblem.loopCond b L := rfl

theorem batchesGo_eq (stream : List RawEvent) :
    ∀ (b : Nat) (acc : List (Option Record)) (L : Ledger),
      DProb.batchesGo b acc L stream = DProblem.batchesGo b acc L stream := by
  induction stream with
  | nil =>
      intro b acc L
      simp only [DProb.batchesGo, DProblem.batchesGo, loopCond_eq]
  | cons e rest ih =>
      intro b acc L
      simp only [DProb.batchesGo, DProblem.batchesGo, loopCond_eq,
        listen_once_eq, updateLedger_eq, ih]

theorem countGo_eq (n : Nat) :
    ∀ (stream : List RawEvent) (acc : List (Option Record)),
      DProb.countGo acc n stream = DProblem.countGo acc n stream := by
  induction n with
  | zero => intro stream acc; rfl
  | succ m ih =>
      intro stream acc
      cases stream with
      | nil => rfl
      | cons e rest =>
          simp only [DProb.countGo, DProblem.countGo, listen_once_eq, ih]

theorem idleGo_eq (stream : List RawEvent) :
    ∀ acc : List (Option Record),
      DProb.idleGo acc stream = DProblem.idleGo acc stream := by
  induction stream with
  | nil => intro acc; rfl
  | cons e rest ih =>
      intro acc
      simp only [DProb.idleGo, DProblem.idleGo, listen_once_eq, ih]

theorem listen_many_idle_eq (stream : List RawEvent) :
    DProb.listen_many_idle stream = DProblem.listen_many_idle stream := by
  cases stream with
  | nil => rfl
  | cons e rest =>
      simp only [DProb.listen_many_idle, DProblem.listen_many_idle,
        listen_once_eq, idleGo_eq]

theorem listen_many_count_eq (n : Nat) (stream : List RawEvent) :
    DProb.listen_many_count n stream = DProblem.listen_many_count n stream := by
  unfold DProb.listen_many_count DProblem.listen_many_count
  rw [countGo_eq]

theorem listen_many_batches_eq (b : Nat) (stream : List RawEvent) :
    DProb.listen_many_batches b stream = DProblem.listen_many_batches b stream := by
  unfold DProb.listen_many_batches DProblem.listen_many_batches
  rw [batchesGo_eq]

theorem listen_many_eq (numItems numBatches : Option Nat)
    (stream : List RawEvent) :
    DProb.listen_many numItems numBatches stream =
      DProblem.listen_many numItems numBatches stream := by
  unfold DProb.listen_many DProblem.listen_many
  cases numItems with
  | some n => exact listen_many_count_eq n stream
  | none =>
      cases numBatches with
      | some b => exact listen_many_batches_eq b stream
      | none => exact listen_many_idle_eq stream

theorem listen_many_idle_cons (e : RawEvent) (rest : List RawEvent) :
    listen_many_idle (e :: rest) =
      match listen_once e with
      | .error err => (.raised err, rest)
      | .ok d => idleGo [d] rest := rfl

/-!
The claims.
-/

/-- C1: For every `b ≥ 1` and every wire of received records, the
fixed-batch-count session `listen_many(num_batches=b)` stops receiving
exactly at the first point where the loop guard turns false, i.e. where both
the number of distinct batch ids seen is at least `b` (`¬ L.length < b`) and
every ledger entry has `remaining = 0`; the leftover wire
`(recs.drop k).map post` witnesses that no further receive is performed, so
in particular the loop keeps receiving past `b` distinct batches while any
earlier batch's entry is unsatisfied (the guard is still true at every
`j < k`), and it returns all received records in arrival order. -/
theorem C1_fixed_batch_session_stops_at_first_satisfaction
    (b k : Nat) (recs : List Record) (_hb : 1 ≤ b) (hk : k ≤ recs.length)
    (hstop : loopCond b (ledgerAfter (recs.take k)) = false)
    (hmin : ∀ j, j < k → loopCond b (ledgerAfter (recs.take j)) = true) :
    listen_many_batches b (recs.map RawEvent.post) =
      (Outcome.done ((recs.take k).map some),
       (recs.drop k).map RawEvent.post) := by
  have h := batchesGo_stops b k recs [] [] []
    hk (by simpa [ledgerAfter] using hstop)
    (fun j hj => by simpa [ledgerAfter] using hmin j hj)
  simpa [listen_many_batches] using h

/-- Witness for C1: one batch of declared size 1 satisfies the guard first
at `k = 1`, and the session returns exactly that record. -/
theorem C1_witness :
    (1 ≤ 1 ∧ 1 ≤ ([⟨ "A", 1, 0⟩] : List Record).length ∧
     loopCond 1 (ledgerAfter (([⟨ "A", 1, 0⟩] : List Record).take 1)) = false ∧
     (∀ j, j < 1 →
       loopCond 1 (ledgerAfter (([⟨ "A", 1, 0⟩] : List Record).take j)) = true)) ∧
    listen_many_batches 1 (([⟨ "A", 1, 0⟩] : List Record).map RawEvent.post) =
      (Outcome.done ((([⟨ "A", 1, 0⟩] : List Record).take 1).map some),
       (([⟨ "A", 1, 0⟩] : List Record).drop 1).map RawEvent.post) :=
  ⟨⟨by decide, by decide, by decide, by decide⟩,
   C1_fixed_batch_session_stops_at_first_satisfaction 1 1 [⟨ "A", 1, 0⟩]
     (by decide) (by decide) (by decide) (by decide)⟩

/-- C2: In a fixed-batch-count session in which every record declares
`batchSize ≥ 1`, records sharing a `batchId` declare the same size, and no
batch sends more records than its declared size, the ledger after every
receive-and-update step (the fold `ledgerAfter` over any prefix of the
arriving records, which is exactly the loop's `batches` state, see
`batchesGo_stops`) satisfies `0 ≤ remaining ≤ total` in every entry. -/
theorem C2_ledger_invariant (recs : List Record)
    (_h1 : ∀ r ∈ recs, 1 ≤ r.batchSize)
    (_h2 : ∀ r ∈ recs, ∀ s ∈ recs, r.batchId = s.batchId →
      r.batchSize = s.batchSize)
    (h3 : ∀ r ∈ recs, (batchCount recs r.batchId : Int) ≤ r.batchSize)
    (k : Nat) :
    ∀ ent ∈ ledgerAfter (recs.take k), 0 ≤ ent.2.1 ∧ ent.2.1 ≤ ent.2.2 := by
  intro ent hm
  obtain ⟨i, rem, tot⟩ := ent
  have hnd : (ledgerKeys (ledgerAfter (recs.take k))).Nodup :=
    nodup_ledgerKeys_ledgerSteps (recs.take k) [] (by simp [ledgerKeys])
  have hfe : findEntry (ledgerAfter (recs.take k)) i = some (i, rem, tot) :=
    findEntry_of_mem _ hnd (i, rem, tot) hm
  rw [ledgerAfter, findEntry_ledgerSteps] at hfe
  simp only [findEntry_nil] at hfe
  cases hfind : (recs.take k).find? (fun r => r.batchId == i) with
  | none => rw [hfind] at hfe; exact absurd hfe (by simp)
  | some r₀ =>
      rw [hfind] at hfe
      simp only [Option.some.injEq, Prod.mk.injEq] at hfe
      obtain ⟨-, hrem, htot⟩ := hfe
      have hr₀take : r₀ ∈ recs.take k := List.mem_of_find?_eq_some hfind
      have hr₀recs : r₀ ∈ recs := (List.take_sublist k recs).subset hr₀take
      have hr₀id : r₀.batchId = i := by
        have h := List.find?_some hfind
        simpa using h
      have hc1 : batchCount (recs.take k) i ≤ batchCount recs i := by
        conv_rhs => rw [← List.take_append_drop k recs]
        simp only [batchCount, List.filter_append, List.length_append]
        exact Nat.le_add_right _ _
      have hc2 : (batchCount recs i : Int) ≤ r₀.batchSize := by
        have h := h3 r₀ hr₀recs
        rw [hr₀id] at h
        exact h
      show (0 : Int) ≤ rem ∧ rem ≤ tot
      refine ⟨?_, ?_⟩ <;> omega

/-- Witness for C2: two records of the same size-2 batch keep the entry at
`0 ≤ remaining ≤ total` after both steps. -/
theorem C2_witness :
    ((∀ r ∈ ([⟨ "X", 2, 1⟩, ⟨ "X", 2, 2⟩] : List Record), 1 ≤ r.batchSize) ∧
     (∀ r ∈ ([⟨ "X", 2, 1⟩, ⟨ "X", 2, 2⟩] : List Record),
       ∀ s ∈ ([⟨ "X", 2, 1⟩, ⟨ "X", 2, 2⟩] : List Record),
         r.batchId = s.batchId → r.batchSize = s.batchSize) ∧
     (∀ r ∈ ([⟨ "X", 2, 1⟩, ⟨ "X", 2, 2⟩] : List Record),
       (batchCount [⟨ "X", 2, 1⟩, ⟨ "X", 2, 2⟩] r.batchId : Int) ≤
         r.batchSize)) ∧
    (∀ ent ∈ ledgerAfter (([⟨ "X", 2, 1⟩, ⟨ "X", 2, 2⟩] : List Record).take 2),
      0 ≤ ent.2.1 ∧ ent.2.1 ≤ ent.2.2) :=
  ⟨⟨by decide, by decide, by decide⟩,
   C2_ledger_invariant [⟨ "X", 2, 1⟩, ⟨ "X", 2, 2⟩]
     (by decide) (by decide) (by decide) 2⟩

/-- C3: The ledger entry for a batch id is created only by the first record
carrying that id: it exists exactly when such a record exists, its `total`
is the first record's declared `batchSize` (later declared sizes are
ignored), and its `remaining` is that size minus the number of records of
the batch processed so far — i.e. the creating record leaves
`batchSize - 1` and each later record of the batch decrements by exactly
one. -/
theorem C3_ledger_built_from_first_sighting (recs : List Record) (i : String) :
    findEntry (ledgerAfter recs) i =
      match recs.find? (fun r => r.batchId == i) with
      | none => none
      | some r₀ =>
          some (i, r₀.batchSize - (batchCount recs i : Int), r₀.batchSize) := by
  rw [ledgerAfter, findEntry_ledgerSteps]
  simp only [findEntry_nil]

/-- C4: On the stream `X1, Y1, X2` with batch `X` declaring size 2 and `Y`
size 1, the fixed-batch-count session (for `b = 1` and for `b = 2`)
completes exactly after the third record — the untouched tail `rest`
witnesses that nothing further is received — and returns the three records
in arrival order. -/
theorem C4_interleaved_example :
    (∀ rest : List RawEvent,
      listen_many_batches 1
        (RawEvent.post ⟨ "X", 2, 1⟩ :: RawEvent.post ⟨ "Y", 1, 2⟩ ::
          RawEvent.post ⟨ "X", 2, 3⟩ :: rest) =
        (Outcome.done
          [some ⟨ "X", 2, 1⟩, some ⟨ "Y", 1, 2⟩, some ⟨ "X", 2, 3⟩], rest)) ∧
    (∀ rest : List RawEvent,
      listen_many_batches 2
        (RawEvent.post ⟨ "X", 2, 1⟩ :: RawEvent.post ⟨ "Y", 1, 2⟩ ::
          RawEvent.post ⟨ "X", 2, 3⟩ :: rest) =
        (Outcome.done
          [some ⟨ "X", 2, 1⟩, some ⟨ "Y", 1, 2⟩, some ⟨ "X", 2, 3⟩], rest)) := by
  constructor
  · intro rest
    have s1 : loopCond 1 ([] : Ledger) = true := by decide
    have s2 : loopCond 1 (updateLedger [] ⟨ "X", 2, 1⟩) = true := by decide
    have s3 : loopCond 1
        (updateLedger (updateLedger [] ⟨ "X", 2, 1⟩) ⟨ "Y", 1, 2⟩) = true := by
      decide
    have s4 : loopCond 1
        (updateLedger (updateLedger (updateLedger [] ⟨ "X", 2, 1⟩)
          ⟨ "Y", 1, 2⟩) ⟨ "X", 2, 3⟩) = false := by decide
    unfold listen_many_batches
    rw [batchesGo_post s1, batchesGo_post s2, batchesGo_post s3,
      batchesGo_of_cond_false s4]
    simp
  · intro rest
    have s1 : loopCond 2 ([] : Ledger) = true := by decide
    have s2 : loopCond 2 (updateLedger [] ⟨ "X", 2, 1⟩) = true := by decide
    have s3 : loopCond 2
        (updateLedger (updateLedger [] ⟨ "X", 2, 1⟩) ⟨ "Y", 1, 2⟩) = true := by
      decide
    have s4 : loopCond 2
        (updateLedger (updateLedger (updateLedger [] ⟨ "X", 2, 1⟩)
          ⟨ "Y", 1, 2⟩) ⟨ "X", 2, 3⟩) = false := by decide
    unfold listen_many_batches
    rw [batchesGo_post s1, batchesGo_post s2, batchesGo_post s3,
      batchesGo_of_cond_false s4]
    simp

/-- C5: The fixed-count session `listen_many(num_items=n)` performs exactly
`n` single receives (the tail `rest` of the wire is returned untouched) and,
when `n` requests arrive, returns exactly those `n` records in arrival
order; for `n = 0` (the empty `recs`) it returns the empty sequence without
receiving anything. -/
theorem C5_fixed_count_session (recs : List Record) (rest : List RawEvent) :
    listen_many_count recs.length (recs.map RawEvent.post ++ rest) =
      (Outcome.done (recs.map some), rest) := by
  have h := countGo_spec recs [] rest
  simpa [listen_many_count] using h

/-- C6: The idle-timeout session performs one mandatory blocking receive
(whose result `d₀` is stored unconditionally, before any stop test), then
repeatedly receives with the timeout and stops at the first receive yielding
no data, returning the accumulated records in arrival order; no batch
bookkeeping appears anywhere in `listen_many_idle` or `idleGo`. -/
theorem C6_idle_timeout_session (e₀ : RawEvent) (d₀ : Option Record)
    (recs : List Record) (stopEv : RawEvent) (rest : List RawEvent)
    (h₀ : listen_once e₀ = .ok d₀)
    (hstop : listen_once stopEv = .ok none) :
    listen_many_idle (e₀ :: (recs.map RawEvent.post ++ stopEv :: rest)) =
      (Outcome.done (d₀ :: recs.map some), rest) := by
  rw [listen_many_idle_cons, h₀]
  have h := idleGo_spec recs [d₀] rest hstop
  simpa using h

/-- Witness for C6: one posted record then an idle timeout yields that
single record. -/
theorem C6_witness :
    (listen_once (RawEvent.post ⟨ "A", 1, 0⟩) =
      Except.ok (some ⟨ "A", 1, 0⟩) ∧
     listen_once RawEvent.nodata = Except.ok none) ∧
    listen_many_idle (RawEvent.post ⟨ "A", 1, 0⟩ ::
        (([] : List Record).map RawEvent.post ++ RawEvent.nodata :: [])) =
      (Outcome.done (some ⟨ "A", 1, 0⟩ :: ([] : List Record).map some), []) :=
  ⟨⟨rfl, rfl⟩,
   C6_idle_timeout_session (RawEvent.post ⟨ "A", 1, 0⟩) (some ⟨ "A", 1, 0⟩)
     [] RawEvent.nodata [] rfl rfl⟩

/-- C7 counterexample: a malformed body does not make the session end with a
propagated parse error.  The parse exception is caught inside the receive
(the stdlib request dispatcher logs it and moves on, see `listen_once`), so
the fixed-batch session `listen_many(num_batches=1)` on a wire whose only
event is a malformed POST returns normally — `done` with zero records —
and no `raised` outcome occurs. -/
theorem C7_counterexample_no_propagated_parse_error :
    listen_many_batches 1 [RawEvent.malformed] = (Outcome.done [], []) ∧
    (listen_many_batches 1 [RawEvent.malformed]).1.isRaised = false := by
  decide

/-- C7 amended: sending a malformed body makes the in-flight receive report
no data (the parse error is caught and logged inside the server's request
dispatch, not propagated); a fixed-batch-count session with `b ≥ 1` whose
first event is the malformed body therefore ends normally with zero records
returned. -/
theorem C7_amended_malformed_ends_session_without_error
    (b : Nat) (rest : List RawEvent) (hb : 1 ≤ b) :
    listen_many_batches b (RawEvent.malformed :: rest) =
      (Outcome.done [], rest) := by
  unfold listen_many_batches
  have h0 : loopCond b [] = true := by
    unfold loopCond
    simp only [List.length_nil, List.any_nil, Bool.or_false,
      decide_eq_true_eq]
    exact hb
  have hm : listen_once RawEvent.malformed = Except.ok none := rfl
  exact batchesGo_of_none h0 hm [] rest

/-- Witness for C7's amended claim at `b = 1` and an empty tail. -/
theorem C7_witness :
    1 ≤ 1 ∧
    listen_many_batches 1 (RawEvent.malformed :: []) =
      (Outcome.done [], []) :=
  ⟨by decide,
   C7_amended_malformed_ends_session_without_error 1 [] (by decide)⟩

/-- C8: If, while the fixed-batch-count loop is still unsatisfied after
every prefix of the received records, a single receive yields no data, the
session ends immediately — the tail `rest` of the wire is returned
untouched — returning exactly the records collected so far in arrival
order; the ledger is local loop state and is discarded (no part of the
result). -/
theorem C8_none_receive_ends_batch_session (b : Nat) (recs : List Record)
    (stopEv : RawEvent) (rest : List RawEvent)
    (hrun : ∀ k, k ≤ recs.length →
      loopCond b (ledgerAfter (recs.take k)) = true)
    (hstop : listen_once stopEv = .ok none) :
    listen_many_batches b (recs.map RawEvent.post ++ stopEv :: rest) =
      (Outcome.done (recs.map some), rest) := by
  have h := batchesGo_nodata_end b recs [] [] stopEv rest
    (fun k hk => by simpa [ledgerAfter] using hrun k hk) hstop
  simpa [listen_many_batches] using h

/-- Witness for C8: a half-finished size-2 batch followed by a no-data
receive ends the session with the one collected record. -/
theorem C8_witness :
    ((∀ k, k ≤ ([⟨ "A", 2, 0⟩] : List Record).length →
      loopCond 1 (ledgerAfter (([⟨ "A", 2, 0⟩] : List Record).take k)) =
        true) ∧
     listen_once RawEvent.nodata = Except.ok none) ∧
    listen_many_batches 1
        (([⟨ "A", 2, 0⟩] : List Record).map RawEvent.post ++
          RawEvent.nodata :: []) =
      (Outcome.done (([⟨ "A", 2, 0⟩] : List Record).map some), []) :=
  ⟨⟨by decide, rfl⟩,
   C8_none_receive_ends_batch_session 1 [⟨ "A", 2, 0⟩] RawEvent.nodata []
     (by decide) rfl⟩

/-- C9: The listener logic is duplicated verbatim across the two scripts:
`listen_once` and `listen_many` of `download_prob.py` (namespace `DProb`)
and of `download_problem.py` (namespace `DProblem`) return identical results
for every wire, policy selection and parameter values. -/
theorem C9_duplicated_listener_extensionally_equal :
    (∀ e : RawEvent, DProb.listen_once e = DProblem.listen_once e) ∧
    (∀ (numItems numBatches : Option Nat) (stream : List RawEvent),
      DProb.listen_many numItems numBatches stream =
        DProblem.listen_many numItems numBatches stream) :=
  ⟨listen_once_eq, listen_many_eq⟩

/-- C10: From any ledger state with a negative `remaining` in some entry
(reachable e.g. after a record declaring `batchSize = 0`, as the witness
shows), every subsequent receive leaves that counter negative — hence
nonzero — so the loop guard stays true after every further prefix of
records, the stop condition never holds again, and on a wire of posts the
session can only run out of wire and block: it never completes normally
except through a receive yielding no data. -/
theorem C10_negative_remaining_never_recovers (L : Ledger) (i : String)
    (rem tot : Int) (hent : findEntry L i = some (i, rem, tot))
    (hneg : rem < 0) :
    (∀ r : Record, ∃ rem' tot' : Int,
      findEntry (updateLedger L r) i = some (i, rem', tot') ∧ rem' < 0) ∧
    (∀ (recs : List Record) (b : Nat),
      loopCond b (ledgerSteps L recs) = true) ∧
    (∀ (b : Nat) (acc : List (Option Record)) (recs : List Record),
      batchesGo b acc L (recs.map RawEvent.post) = (Outcome.blocked, [])) := by
  refine ⟨?_, ?_, ?_⟩
  · intro r
    by_cases hb : r.batchId = i
    · refine ⟨rem - 1, tot, ?_, by omega⟩
      have h := findEntry_updateLedger_self L r
      rw [hb] at h
      rw [h, hent]
    · refine ⟨rem, tot, ?_, hneg⟩
      rw [findEntry_updateLedger_ne L r i (fun he => hb he.symm)]
      exact hent
  · intro recs b
    have h := findEntry_ledgerSteps i recs L
    rw [hent] at h
    exact loopCond_true_of_nonzero (by simpa using h) (by omega) b
  · intro b acc recs
    exact batchesGo_blocked_of_neg b recs acc L i rem tot hent hneg

/-- Witness for C10: the ledger reached after one record declaring
`batchSize = 0` has `remaining = -1`, and the theorem applies to it. -/
theorem C10_witness :
    (findEntry (ledgerAfter [⟨ "X", 0, 7⟩]) "X" = some ( "X", -1, 0) ∧
     (-1 : Int) < 0) ∧
    ((∀ r : Record, ∃ rem' tot' : Int,
      findEntry (updateLedger (ledgerAfter [⟨ "X", 0, 7⟩]) r) "X" =
        some ( "X", rem', tot') ∧ rem' < 0) ∧
     (∀ (recs : List Record) (b : Nat),
       loopCond b (ledgerSteps (ledgerAfter [⟨ "X", 0, 7⟩]) recs) = true) ∧
     (∀ (b : Nat) (acc : List (Option Record)) (recs : List Record),
       batchesGo b acc (ledgerAfter [⟨ "X", 0, 7⟩]) (recs.map RawEvent.post) =
         (Outcome.blocked, []))) :=
  ⟨⟨by decide, by decide⟩,
   C10_negative_remaining_never_recovers (ledgerAfter [⟨ "X", 0, 7⟩]) "X"
     (-1) 0 (by decide) (by decide)⟩
